import Mathlib

/-!
Shallow embedding of the radix-2 FFT plan engine of `src/core/fft/fft_plan.cpp`
and `src/core/fft/fft_plan.hpp` (C++ namespace `dsp::core`), together with
proofs of the specification claims about it.  Machine floating point is
modelled by exact real/complex arithmetic, as the claims request.
-/

open Complex

namespace DSP

/-- Configuration options for FFT plan creation (`struct FFTPlanConfig`). -/
structure FFTPlanConfig where
  inPlace : Bool := true
  useAVX : Bool := true
  doublePrec : Bool := false

/-- Embedding of `FFTPlan<T>::isPowerOfTwo`:
`value > 0 && (value & (value - 1)) == 0`. -/
def isPowerOfTwo (value : ℕ) : Bool :=
  decide (value > 0) && decide (value &&& (value - 1) = 0)

/-- Embedding of `FFTPlan<T>::log2` (truncating base-2 logarithm; the C++
code computes it through `std::log2` on a `double`, which is exact on the
power-of-two sizes a plan can hold). -/
def log2 (value : ℕ) : ℕ :=
  Nat.log2 value

/-- Loop of `FFTPlan<T>::reverseBits`: `bits` iterations remain, and
`value`, `result` are the current values of the loop variables
(`result = (result << 1) | (value & 1); value >>= 1`). -/
def reverseBitsAux : ℕ → ℕ → ℕ → ℕ
  | 0, _, result => result
  | bits + 1, value, result =>
      reverseBitsAux bits (value >>> 1) ((result <<< 1) ||| (value &&& 1))

/-- Embedding of `FFTPlan<T>::reverseBits`. -/
def reverseBits (value bits : ℕ) : ℕ :=
  reverseBitsAux bits value 0

/-- Value stored by `FFTPlan<T>::initTwiddles` at index `k`:
`angle = -2·π·k/size`; the entry is `(cos angle, sin angle)`. -/
noncomputable def twiddleVal (size k : ℕ) : ℂ :=
  let angle : ℝ := -2 * Real.pi * k / size
  ⟨Real.cos angle, Real.sin angle⟩

/-- The twiddle table built by `FFTPlan<T>::initTwiddles`: `size/2` entries. -/
noncomputable def initTwiddles (size : ℕ) : List ℂ :=
  (List.range (size / 2)).map (twiddleVal size)

/-- The table built by `FFTPlan<T>::initBitReversalIndices`. -/
def initBitReversalIndices (size stages : ℕ) : List ℕ :=
  (List.range size).map (fun i => reverseBits i stages)

/-- The plan object (`class FFTPlan<T>`) after successful construction. -/
structure FFTPlan where
  size : ℕ
  stages : ℕ
  config : FFTPlanConfig
  scaleFactor : ℝ
  twiddles : List ℂ
  bitReversalIndices : List ℕ

/-- The fields the constructor computes for a given `size` and `config`. -/
noncomputable def mkPlan (size : ℕ) (config : FFTPlanConfig) : FFTPlan :=
  { size := size
    stages := log2 size
    config := config
    scaleFactor := 1 / (size : ℝ)
    twiddles := initTwiddles size
    bitReversalIndices := initBitReversalIndices size (log2 size) }

/-- Embedding of the constructor `FFTPlan<T>::FFTPlan(size, config)`: it
throws `FFTError("FFT size must be a power of 2")` when `isPowerOfTwo size`
fails, and otherwise yields the fully initialised, ready plan. -/
noncomputable def createPlan (size : ℕ) (config : FFTPlanConfig) :
    Except String FFTPlan :=
  if !isPowerOfTwo size then Except.error "FFT size must be a power of 2"
  else Except.ok (mkPlan size config)

/-- A C buffer `std::complex<T>*` is modelled as the memory it points into:
a function from element offsets to complex values. -/
abbrev Buf : Type := ℕ → ℂ

/-- Write `v` at offset `k` (`data[k] = v`). -/
def store (d : Buf) (k : ℕ) (v : ℂ) : Buf :=
  fun m => if m = k then v else d m

/-- Embedding of `std::swap(data[i], data[j])`. -/
def swapAt (d : Buf) (i j : ℕ) : Buf :=
  fun m => if m = i then d j else if m = j then d i else d m

/-- One iteration of the loop in `FFTPlan<T>::bitReverse`:
`j = bitReversalIndices_[i]; if (i < j) swap(data[i], data[j])`. -/
def bitReverseStep (perm : List ℕ) (d : Buf) (i : ℕ) : Buf :=
  let j := perm.getD i 0
  if i < j then swapAt d i j else d

/-- Embedding of `FFTPlan<T>::bitReverse`. -/
def bitReverse (size : ℕ) (perm : List ℕ) (d : Buf) : Buf :=
  (List.range size).foldl (bitReverseStep perm) d

/-- Body of the innermost loop of `butterflyPass`: one butterfly on the pair
`(i, j)` with twiddle index `tidx` (the twiddle is conjugated when `inv`);
`temp = data[j]*twiddle; data[j] = data[i] - temp; data[i] = data[i] + temp`. -/
noncomputable def butterflyOp (tw : List ℂ) (inv : Bool) (i j tidx : ℕ)
    (d : Buf) : Buf :=
  let twiddle := if inv then (starRingEnd ℂ) (tw.getD tidx 0) else tw.getD tidx 0
  let temp := d j * twiddle
  let d1 := store d j (d i - temp)
  store d1 i (d1 i + temp)

/-- The inner loop of `butterflyPass` over one group: the state is the
buffer together with the running `twiddle_idx` (initially 0, incremented by
`twiddleStep` per butterfly). -/
noncomputable def butterflyGroup (tw : List ℂ) (inv : Bool)
    (butterflySize groupOffset twiddleStep : ℕ) (d : Buf) : Buf :=
  ((List.range butterflySize).foldl
    (fun st butterfly =>
      let i := groupOffset + butterfly
      let j := i + butterflySize
      (butterflyOp tw inv i j st.2 st.1, st.2 + twiddleStep))
    (d, 0)).1

/-- Embedding of `FFTPlan<T>::butterflyPass`. -/
noncomputable def butterflyPass (size : ℕ) (tw : List ℂ) (d : Buf)
    (stage : ℕ) (inv : Bool) : Buf :=
  let butterflySize := 1 <<< stage
  let numGroups := size >>> (stage + 1)
  let groupStep := butterflySize <<< 1
  let twiddleStep := size >>> (stage + 1)
  (List.range numGroups).foldl
    (fun d group =>
      butterflyGroup tw inv butterflySize (group * groupStep) twiddleStep d)
    d

/-- Embedding of `FFTPlan<T>::computeButterflies`. -/
noncomputable def computeButterflies (size stages : ℕ) (tw : List ℂ)
    (d : Buf) (inv : Bool) : Buf :=
  (List.range stages).foldl (fun d stage => butterflyPass size tw d stage inv) d

/-- The scaling loop at the end of `FFTPlan<T>::inverse`
(`data[i] *= scaleFactor_` for `i` in `[0, size)`). -/
noncomputable def scaleLoop (size : ℕ) (scale : ℝ) (d : Buf) : Buf :=
  (List.range size).foldl (fun d i => store d i (d i * (scale : ℂ))) d

/-- The mutation `forward` performs on a non-null buffer. -/
noncomputable def forwardRun (p : FFTPlan) (d : Buf) : Buf :=
  computeButterflies p.size p.stages p.twiddles
    (bitReverse p.size p.bitReversalIndices d) false

/-- The mutation `inverse` performs on a non-null buffer. -/
noncomputable def inverseRun (p : FFTPlan) (d : Buf) : Buf :=
  scaleLoop p.size p.scaleFactor
    (computeButterflies p.size p.stages p.twiddles
      (bitReverse p.size p.bitReversalIndices d) true)

/-- Embedding of `FFTPlan<T>::forward`: a null pointer throws
`FFTError("Null data pointer")`; any non-null buffer is transformed. -/
noncomputable def forward (p : FFTPlan) (data : Option Buf) :
    Except String Buf :=
  match data with
  | none => Except.error "Null data pointer"
  | some d => Except.ok (forwardRun p d)

/-- Embedding of `FFTPlan<T>::inverse`. -/
noncomputable def inverse (p : FFTPlan) (data : Option Buf) :
    Except String Buf :=
  match data with
  | none => Except.error "Null data pointer"
  | some d => Except.ok (inverseRun p d)

/-- Calling `forward` through a length-carrying buffer (as the call sites
do with `std::vector::data()`): a null buffer throws; a present buffer of
any length is handed to the transform as a raw pointer — the code never
inspects its length. -/
noncomputable def forwardOnVector (p : FFTPlan) (data : Option (List ℂ)) :
    Except String (List ℂ) :=
  match data with
  | none => Except.error "Null data pointer"
  | some l =>
      Except.ok ((List.range l.length).map (forwardRun p (fun k => l.getD k 0)))

/-- Calling `inverse` through a length-carrying buffer; see
`forwardOnVector`. -/
noncomputable def inverseOnVector (p : FFTPlan) (data : Option (List ℂ)) :
    Except String (List ℂ) :=
  match data with
  | none => Except.error "Null data pointer"
  | some l =>
      Except.ok ((List.range l.length).map (inverseRun p (fun k => l.getD k 0)))

/-- The twiddle value actually multiplied in by one butterfly, after the
optional conjugation for the inverse transform. -/
noncomputable def wApply (tw : List ℂ) (inv : Bool) (tidx : ℕ) : ℂ :=
  if inv then (starRingEnd ℂ) (tw.getD tidx 0) else tw.getD tidx 0

/-- The loop body of `butterflyGroup`, named so the fold lemmas can speak
about it. -/
noncomputable def groupStepFun (tw : List ℂ) (inv : Bool) (m off step : ℕ) :
    (Buf × ℕ) → ℕ → (Buf × ℕ) :=
  fun st butterfly =>
    (butterflyOp tw inv (off + butterfly) (off + butterfly + m) st.2 st.1,
     st.2 + step)

/-- The engine state after the first `s` butterfly stages. -/
noncomputable def stagesRun (size : ℕ) (tw : List ℂ) (d : Buf) (inv : Bool)
    (s : ℕ) : Buf :=
  (List.range s).foldl (fun d stage => butterflyPass size tw d stage inv) d

/-- Specification-side root of unity `exp(σ·2πi·k / M)`. -/
noncomputable def cw (σ : ℤ) (M k : ℕ) : ℂ :=
  Complex.exp (σ * (2 * Real.pi * Complex.I) * k / M)

/-- Specification-side unnormalised DFT:
`X[k] = Σₙ x[n]·e^(−2πi·k·n/N)`. -/
noncomputable def dft (N : ℕ) (x : Buf) (k : ℕ) : ℂ :=
  ∑ n ∈ Finset.range N, x n * cw (-1) N (k * n)

/-- Sign of the rotation used by the engine: `-1` for the forward
transform, `+1` (conjugated twiddles) for the inverse transform. -/
def twiddleSign (inv : Bool) : ℤ :=
  if inv then 1 else -1

/-- The `(i, j, twiddle_idx)` triples the loops of `butterflyPass` touch at
a given stage, in loop order; the running `twiddle_idx` equals
`butterfly * twiddle_step` (`groupFold_snd` below proves the accumulator
takes exactly these values). -/
def butterflyIndices (size stage : ℕ) : List (ℕ × ℕ × ℕ) :=
  (List.range (size >>> (stage + 1))).flatMap (fun group =>
    (List.range (1 <<< stage)).map (fun butterfly =>
      (group * ((1 <<< stage) <<< 1) + butterfly,
       group * ((1 <<< stage) <<< 1) + butterfly + (1 <<< stage),
       butterfly * (size >>> (stage + 1)))))

/-! ### Arithmetic facts about `reverseBits` -/

theorem two_mul_lor_mod_two (r v : ℕ) : 2 * r ||| v % 2 = 2 * r + v % 2 := by
  rcases Nat.mod_two_eq_zero_or_one v with h | h
  · simp [h]
  · rw [h]
    apply Nat.eq_of_testBit_eq
    intro i
    cases i with
    | zero => simp [Nat.testBit_lor]; omega
    | succ i =>
        rw [Nat.testBit_lor, Nat.testBit_succ, Nat.testBit_succ, Nat.testBit_succ]
        have h1 : 2 * r / 2 = r := by omega
        have h2 : (2 * r + 1) / 2 = r := by omega
        have h3 : (1 : ℕ) / 2 = 0 := by omega
        rw [h1, h2, h3]
        simp

theorem reverseBitsAux_step (b v r : ℕ) :
    reverseBitsAux (b + 1) v r = reverseBitsAux b (v / 2) (2 * r + v % 2) := by
  have hs : v >>> 1 = v / 2 := Nat.shiftRight_one v
  have hl : r <<< 1 = 2 * r := by rw [Nat.shiftLeft_eq]; ring
  have ha : v &&& 1 = v % 2 := Nat.and_one_is_mod v
  rw [reverseBitsAux, hs, hl, ha, two_mul_lor_mod_two]

theorem reverseBitsAux_acc (b : ℕ) :
    ∀ v r, reverseBitsAux b v r = r * 2 ^ b + reverseBitsAux b v 0 := by
  induction b with
  | zero => intro v r; simp [reverseBitsAux]
  | succ c ih =>
      intro v r
      rw [reverseBitsAux_step, reverseBitsAux_step, ih (v / 2) (2 * r + v % 2),
        ih (v / 2) (2 * 0 + v % 2)]
      ring_nf

theorem reverseBits_succ (v b : ℕ) :
    reverseBits v (b + 1) = v % 2 * 2 ^ b + reverseBits (v / 2) b := by
  rw [reverseBits, reverseBitsAux_step, reverseBitsAux_acc, reverseBits]
  norm_num

theorem reverseBits_lt (b : ℕ) : ∀ v, reverseBits v b < 2 ^ b := by
  induction b with
  | zero => intro v; simp [reverseBits, reverseBitsAux]
  | succ c ih =>
      intro v
      rw [reverseBits_succ]
      have h1 := ih (v / 2)
      have h2 : v % 2 < 2 := Nat.mod_lt v (by omega)
      have h3 : v % 2 * 2 ^ c ≤ 1 * 2 ^ c := Nat.mul_le_mul_right _ (by omega)
      calc v % 2 * 2 ^ c + reverseBits (v / 2) c
        < v % 2 * 2 ^ c + 2 ^ c := by omega
        _ ≤ 1 * 2 ^ c + 2 ^ c := by omega
        _ = 2 ^ (c + 1) := by ring

theorem reverseBits_append (b1 b2 : ℕ) :
    ∀ v1 v2, v1 < 2 ^ b1 →
      reverseBits (v1 + 2 ^ b1 * v2) (b1 + b2) =
        reverseBits v2 b2 + 2 ^ b2 * reverseBits v1 b1 := by
  induction b1 with
  | zero =>
      intro v1 v2 h
      have hv : v1 = 0 := by simpa using h
      subst hv
      simp [reverseBits, reverseBitsAux]
  | succ c ih =>
      intro v1 v2 h
      have harith : c + 1 + b2 = (c + b2) + 1 := by omega
      rw [harith, reverseBits_succ]
      have hmod : (v1 + 2 ^ (c + 1) * v2) % 2 = v1 % 2 := by
        have : 2 ^ (c + 1) * v2 = 2 * (2 ^ c * v2) := by ring
        omega
      have hdiv : (v1 + 2 ^ (c + 1) * v2) / 2 = v1 / 2 + 2 ^ c * v2 := by
        have : 2 ^ (c + 1) * v2 = 2 * (2 ^ c * v2) := by ring
        omega
      rw [hmod, hdiv, ih (v1 / 2) v2 (by omega), reverseBits_succ]
      have hpow : 2 ^ (c + b2) = 2 ^ b2 * 2 ^ c := by rw [pow_add]; ring
      rw [hpow]
      ring

theorem reverseBits_one_bit (v : ℕ) (h : v < 2) : reverseBits v 1 = v := by
  interval_cases v <;> simp [reverseBits, reverseBitsAux]

theorem reverseBits_split (v c : ℕ) (h : v < 2 ^ (c + 1)) :
    reverseBits v (c + 1) = reverseBits (v / 2) c + 2 ^ c * (v % 2) := by
  have hv : v = v % 2 + 2 ^ 1 * (v / 2) := by omega
  have h1 : v % 2 < 2 ^ 1 := by omega
  calc reverseBits v (c + 1)
      = reverseBits (v % 2 + 2 ^ 1 * (v / 2)) (1 + c) := by
        rw [← hv, Nat.add_comm 1 c]
    _ = reverseBits (v / 2) c + 2 ^ c * reverseBits (v % 2) 1 :=
        reverseBits_append 1 c (v % 2) (v / 2) h1
    _ = reverseBits (v / 2) c + 2 ^ c * (v % 2) := by
        rw [reverseBits_one_bit (v % 2) (by omega)]

theorem reverseBits_involutive (b : ℕ) :
    ∀ v, v < 2 ^ b → reverseBits (reverseBits v b) b = v := by
  induction b with
  | zero =>
      intro v h
      have hv : v = 0 := by simpa using h
      subst hv
      simp [reverseBits, reverseBitsAux]
  | succ c ih =>
      intro v h
      rw [reverseBits_split v c h]
      have hw1 : reverseBits (v / 2) c < 2 ^ c := reverseBits_lt c (v / 2)
      calc reverseBits (reverseBits (v / 2) c + 2 ^ c * (v % 2)) (c + 1)
          = reverseBits (v % 2) 1 + 2 ^ 1 * reverseBits (reverseBits (v / 2) c) c :=
            reverseBits_append c 1 (reverseBits (v / 2) c) (v % 2) hw1
        _ = v % 2 + 2 ^ 1 * (v / 2) := by
            rw [reverseBits_one_bit (v % 2) (by omega), ih (v / 2) (by omega)]
        _ = v := by omega

theorem reverseBits_two_mul (g b : ℕ) :
    reverseBits (2 * g) (b + 1) = reverseBits g b := by
  rw [reverseBits_succ]
  have h1 : 2 * g % 2 = 0 := by omega
  have h2 : 2 * g / 2 = g := by omega
  rw [h1, h2]
  omega

theorem reverseBits_two_mul_add_one (g b : ℕ) :
    reverseBits (2 * g + 1) (b + 1) = reverseBits g b + 2 ^ b := by
  rw [reverseBits_succ]
  have h1 : (2 * g + 1) % 2 = 1 := by omega
  have h2 : (2 * g + 1) / 2 = g := by omega
  rw [h1, h2]
  omega

/-! ### Pointwise evaluation of the buffer operations -/

theorem getD_range_map {α : Type} (f : ℕ → α) (n i : ℕ) (dflt : α) (h : i < n) :
    ((List.range n).map f).getD i dflt = f i := by
  rw [List.getD_eq_getElem?_getD, List.getElem?_map, List.getElem?_range h]
  rfl

theorem store_eval (d : Buf) (k : ℕ) (v : ℂ) (m : ℕ) :
    store d k v m = if m = k then v else d m := rfl

theorem swapAt_eval (d : Buf) (i j m : ℕ) :
    swapAt d i j m = if m = i then d j else if m = j then d i else d m := rfl

theorem bitReverseStep_eval (perm : List ℕ) (d : Buf) (i k : ℕ) :
    bitReverseStep perm d i k =
      if i < perm.getD i 0 then swapAt d i (perm.getD i 0) k else d k := by
  rw [bitReverseStep]
  exact apply_ite (fun f : Buf => f k) _ _ _

theorem bitReverse_fold_eval (N : ℕ) (perm : List ℕ)
    (hlt : ∀ k, k < N → perm.getD k 0 < N)
    (hinv : ∀ k, k < N → perm.getD (perm.getD k 0) 0 = k)
    (d : Buf) :
    ∀ m, m ≤ N → ∀ k,
      (List.range m).foldl (bitReverseStep perm) d k =
        if k < N ∧ min k (perm.getD k 0) < m then d (perm.getD k 0) else d k := by
  intro m
  induction m with
  | zero => intro _ k; simp
  | succ m ih =>
      intro hm k
      have hmN : m < N := by omega
      have ihm := ih (by omega)
      rw [List.range_succ, List.foldl_append, List.foldl_cons, List.foldl_nil,
        bitReverseStep_eval]
      have hpmN : perm.getD m 0 < N := hlt m hmN
      have hpminv : perm.getD (perm.getD m 0) 0 = m := hinv m hmN
      by_cases hc : m < perm.getD m 0
      · rw [if_pos hc, swapAt_eval]
        by_cases hk1 : k = m
        · subst hk1
          rw [if_pos rfl, ihm]
          rw [if_neg (by omega : ¬ (perm.getD k 0 < N ∧
            min (perm.getD k 0) (perm.getD (perm.getD k 0) 0) < k))]
          rw [if_pos (by omega : k < N ∧ min k (perm.getD k 0) < k + 1)]
        · rw [if_neg hk1]
          by_cases hk2 : k = perm.getD m 0
          · rw [if_pos hk2, ihm]
            rw [if_neg (by omega : ¬ (m < N ∧ min m (perm.getD m 0) < m))]
            have hpk : perm.getD k 0 = m := by rw [hk2]; exact hpminv
            rw [if_pos (by rw [hpk]; omega : k < N ∧ min k (perm.getD k 0) < m + 1)]
            rw [hpk]
          · rw [if_neg hk2, ihm]
            by_cases hkN : k < N
            · have hne : perm.getD k 0 ≠ m := by
                intro hEq
                have := hinv k hkN
                rw [hEq] at this
                exact hk2 this.symm
              by_cases hmin : min k (perm.getD k 0) < m
              · rw [if_pos ⟨hkN, hmin⟩, if_pos ⟨hkN, by omega⟩]
              · rw [if_neg (by omega : ¬ (k < N ∧ min k (perm.getD k 0) < m)),
                  if_neg (by omega : ¬ (k < N ∧ min k (perm.getD k 0) < m + 1))]
            · rw [if_neg (by omega : ¬ (k < N ∧ min k (perm.getD k 0) < m)),
                if_neg (by omega : ¬ (k < N ∧ min k (perm.getD k 0) < m + 1))]
      · rw [if_neg hc, ihm]
        by_cases hkN : k < N
        · by_cases hk1 : k = m
          · subst hk1
            have hpm : perm.getD k 0 ≤ k := by omega
            by_cases hmin : min k (perm.getD k 0) < k
            · rw [if_pos ⟨hkN, hmin⟩, if_pos ⟨hkN, by omega⟩]
            · have hpmk : perm.getD k 0 = k := by omega
              rw [if_neg (by omega : ¬ (k < N ∧ min k (perm.getD k 0) < k)),
                if_pos ⟨hkN, by omega⟩, hpmk]
          · have hne : perm.getD k 0 = m → k = perm.getD m 0 := by
              intro hEq
              rw [← hEq, hinv k hkN]
            by_cases hmin : min k (perm.getD k 0) < m
            · rw [if_pos ⟨hkN, hmin⟩, if_pos ⟨hkN, by omega⟩]
            · have hne2 : min k (perm.getD k 0) ≠ m := by
                intro hEq
                rcases Nat.le_total k (perm.getD k 0) with hle | hle
                · have : k = m := by omega
                  omega
                · have hp : perm.getD k 0 = m := by omega
                  have := hne hp
                  omega
              rw [if_neg (by omega : ¬ (k < N ∧ min k (perm.getD k 0) < m)),
                if_neg (by omega : ¬ (k < N ∧ min k (perm.getD k 0) < m + 1))]
        · rw [if_neg (by omega : ¬ (k < N ∧ min k (perm.getD k 0) < m)),
            if_neg (by omega : ¬ (k < N ∧ min k (perm.getD k 0) < m + 1))]

/-- After `bitReverse`, position `k` holds the element the permutation
table sends it to. -/
theorem bitReverse_eval (N : ℕ) (perm : List ℕ)
    (hlt : ∀ k, k < N → perm.getD k 0 < N)
    (hinv : ∀ k, k < N → perm.getD (perm.getD k 0) 0 = k)
    (d : Buf) (k : ℕ) (hk : k < N) :
    bitReverse N perm d k = d (perm.getD k 0) := by
  rw [bitReverse, bitReverse_fold_eval N perm hlt hinv d N (le_refl N) k]
  rw [if_pos ⟨hk, by omega⟩]

theorem bitReverse_eval_out (N : ℕ) (perm : List ℕ)
    (hlt : ∀ k, k < N → perm.getD k 0 < N)
    (hinv : ∀ k, k < N → perm.getD (perm.getD k 0) 0 = k)
    (d : Buf) (k : ℕ) (hk : ¬ k < N) :
    bitReverse N perm d k = d k := by
  rw [bitReverse, bitReverse_fold_eval N perm hlt hinv d N (le_refl N) k]
  rw [if_neg (by omega : ¬ (k < N ∧ min k (perm.getD k 0) < N))]

theorem scaleLoop_eval (N : ℕ) (c : ℝ) (d : Buf) (k : ℕ) :
    scaleLoop N c d k = if k < N then d k * (c : ℂ) else d k := by
  rw [scaleLoop]
  induction N generalizing k with
  | zero => simp
  | succ m ih =>
      rw [List.range_succ, List.foldl_append, List.foldl_cons, List.foldl_nil,
        store_eval]
      by_cases hk : k = m
      · subst hk
        rw [if_pos rfl, ih, if_neg (by omega : ¬ k < k), if_pos (by omega : k < k + 1)]
      · rw [if_neg hk, ih]
        by_cases hkm : k < m
        · rw [if_pos hkm, if_pos (by omega : k < m + 1)]
        · rw [if_neg hkm, if_neg (by omega : ¬ k < m + 1)]

/-! ### Pointwise evaluation of the butterfly loops -/

theorem butterflyOp_eval (tw : List ℂ) (inv : Bool) (i j tidx : ℕ) (d : Buf)
    (hij : i ≠ j) (k : ℕ) :
    butterflyOp tw inv i j tidx d k =
      if k = i then d i + d j * wApply tw inv tidx
      else if k = j then d i - d j * wApply tw inv tidx
      else d k := by
  by_cases hk1 : k = i
  · subst hk1
    simp [butterflyOp, wApply, store, hij, Ne.symm hij]
  · by_cases hk2 : k = j
    · subst hk2
      simp [butterflyOp, wApply, store, hk1, Ne.symm hk1]
    · simp [butterflyOp, wApply, store, hk1, hk2, Ne.symm hij]

theorem butterflyGroup_eq_fold (tw : List ℂ) (inv : Bool) (m off step : ℕ)
    (d : Buf) :
    butterflyGroup tw inv m off step d =
      ((List.range m).foldl (groupStepFun tw inv m off step) (d, 0)).1 := rfl

theorem groupFold_snd (tw : List ℂ) (inv : Bool) (m off step : ℕ) (d : Buf) :
    ∀ c, ((List.range c).foldl (groupStepFun tw inv m off step) (d, 0)).2 =
      c * step := by
  intro c
  induction c with
  | zero => simp
  | succ c ih =>
      rw [List.range_succ, List.foldl_append, List.foldl_cons, List.foldl_nil]
      show ((List.range c).foldl (groupStepFun tw inv m off step) (d, 0)).2 + step =
        (c + 1) * step
      rw [ih]
      ring

theorem groupFold_fst (tw : List ℂ) (inv : Bool) (m off step : ℕ) (d : Buf) :
    ∀ c, c ≤ m → ∀ k,
      ((List.range c).foldl (groupStepFun tw inv m off step) (d, 0)).1 k =
        if off ≤ k ∧ k < off + c then
          d k + d (k + m) * wApply tw inv ((k - off) * step)
        else if off + m ≤ k ∧ k < off + m + c then
          d (k - m) - d k * wApply tw inv ((k - m - off) * step)
        else d k := by
  intro c
  induction c with
  | zero =>
      intro _ k
      rw [List.range_zero, List.foldl_nil]
      rw [if_neg (by omega : ¬ (off ≤ k ∧ k < off + 0)),
        if_neg (by omega : ¬ (off + m ≤ k ∧ k < off + m + 0))]
  | succ c ih =>
      intro hc k
      have hcm : c < m := by omega
      have ihc := ih (by omega)
      rw [List.range_succ, List.foldl_append, List.foldl_cons, List.foldl_nil]
      show (groupStepFun tw inv m off step
        ((List.range c).foldl (groupStepFun tw inv m off step) (d, 0)) c).1 k = _
      rw [groupStepFun]
      show butterflyOp tw inv (off + c) (off + c + m)
        ((List.range c).foldl (groupStepFun tw inv m off step) (d, 0)).2
        ((List.range c).foldl (groupStepFun tw inv m off step) (d, 0)).1 k = _
      rw [groupFold_snd tw inv m off step d c]
      rw [butterflyOp_eval _ _ _ _ _ _ (by omega : off + c ≠ off + c + m) k]
      have hread1 : ((List.range c).foldl (groupStepFun tw inv m off step) (d, 0)).1
          (off + c) = d (off + c) := by
        rw [ihc (off + c),
          if_neg (by omega : ¬ (off ≤ off + c ∧ off + c < off + c)),
          if_neg (by omega : ¬ (off + m ≤ off + c ∧ off + c < off + m + c))]
      have hread2 : ((List.range c).foldl (groupStepFun tw inv m off step) (d, 0)).1
          (off + c + m) = d (off + c + m) := by
        rw [ihc (off + c + m),
          if_neg (by omega : ¬ (off ≤ off + c + m ∧ off + c + m < off + c)),
          if_neg (by omega : ¬ (off + m ≤ off + c + m ∧ off + c + m < off + m + c))]
      by_cases hk1 : k = off + c
      · subst hk1
        rw [if_pos rfl, hread1, hread2]
        rw [if_pos (by omega : off ≤ off + c ∧ off + c < off + (c + 1))]
        have he2 : off + c - off = c := by omega
        rw [he2]
      · rw [if_neg hk1]
        by_cases hk2 : k = off + c + m
        · subst hk2
          rw [if_pos rfl, hread1, hread2]
          rw [if_neg (by omega : ¬ (off ≤ off + c + m ∧ off + c + m < off + (c + 1))),
            if_pos (by omega : off + m ≤ off + c + m ∧ off + c + m < off + m + (c + 1))]
          have he2 : off + c + m - m - off = c := by omega
          have he1 : off + c + m - m = off + c := by omega
          rw [he2, he1]
        · rw [if_neg hk2, ihc k]
          by_cases hb1 : off ≤ k ∧ k < off + c
          · rw [if_pos hb1, if_pos (by omega : off ≤ k ∧ k < off + (c + 1))]
          · rw [if_neg hb1]
            by_cases hb2 : off + m ≤ k ∧ k < off + m + c
            · rw [if_pos hb2,
                if_neg (by omega : ¬ (off ≤ k ∧ k < off + (c + 1))),
                if_pos (by omega : off + m ≤ k ∧ k < off + m + (c + 1))]
            · rw [if_neg hb2,
                if_neg (by omega : ¬ (off ≤ k ∧ k < off + (c + 1))),
                if_neg (by omega : ¬ (off + m ≤ k ∧ k < off + m + (c + 1)))]

theorem butterflyGroup_eval (tw : List ℂ) (inv : Bool) (m off step : ℕ)
    (d : Buf) (k : ℕ) :
    butterflyGroup tw inv m off step d k =
      if off ≤ k ∧ k < off + m then
        d k + d (k + m) * wApply tw inv ((k - off) * step)
      else if off + m ≤ k ∧ k < off + m + m then
        d (k - m) - d k * wApply tw inv ((k - m - off) * step)
      else d k := by
  rw [butterflyGroup_eq_fold]
  exact groupFold_fst tw inv m off step d m (le_refl m) k

theorem passFold_eval (tw : List ℂ) (inv : Bool) (m ts : ℕ) (d : Buf) :
    ∀ G k,
      ((List.range G).foldl
        (fun d g => butterflyGroup tw inv m (g * (m * 2)) ts d) d) k =
        if k < G * (m * 2) then
          (if k % (m * 2) < m then
            d k + d (k + m) * wApply tw inv ((k % (m * 2)) * ts)
          else
            d (k - m) - d k * wApply tw inv ((k % (m * 2) - m) * ts))
        else d k := by
  intro G
  induction G with
  | zero =>
      intro k
      rw [List.range_zero, List.foldl_nil, if_neg (by omega : ¬ k < 0 * (m * 2))]
  | succ G ih =>
      intro k
      have hGsucc : (G + 1) * (m * 2) = G * (m * 2) + (m + m) := by ring
      have hcomm : (m * 2) * G = G * (m * 2) := by ring
      rw [List.range_succ, List.foldl_append, List.foldl_cons, List.foldl_nil,
        butterflyGroup_eval]
      by_cases hlow : k < G * (m * 2)
      · rw [if_neg (by omega : ¬ (G * (m * 2) ≤ k ∧ k < G * (m * 2) + m)),
          if_neg (by omega : ¬ (G * (m * 2) + m ≤ k ∧ k < G * (m * 2) + m + m)),
          ih k, if_pos hlow, if_pos (by omega : k < (G + 1) * (m * 2))]
      · by_cases hmid : k < (G + 1) * (m * 2)
        · have hkr : k = (m * 2) * G + (k - G * (m * 2)) := by omega
          have hrlt : k - G * (m * 2) < m * 2 := by omega
          have hmod : k % (m * 2) = k - G * (m * 2) := by
            conv_lhs => rw [hkr]
            rw [Nat.mul_add_mod]
            exact Nat.mod_eq_of_lt hrlt
          by_cases hbr : k - G * (m * 2) < m
          · rw [if_pos (by omega : G * (m * 2) ≤ k ∧ k < G * (m * 2) + m)]
            have hr1 : ((List.range G).foldl
                (fun d g => butterflyGroup tw inv m (g * (m * 2)) ts d) d) k = d k := by
              rw [ih k, if_neg (by omega : ¬ k < G * (m * 2))]
            have hr2 : ((List.range G).foldl
                (fun d g => butterflyGroup tw inv m (g * (m * 2)) ts d) d) (k + m) =
                d (k + m) := by
              rw [ih (k + m), if_neg (by omega : ¬ k + m < G * (m * 2))]
            rw [hr1, hr2, if_pos hmid, if_pos (by omega : k % (m * 2) < m), hmod]
          · rw [if_neg (by omega : ¬ (G * (m * 2) ≤ k ∧ k < G * (m * 2) + m)),
              if_pos (by omega : G * (m * 2) + m ≤ k ∧ k < G * (m * 2) + m + m)]
            have hr1 : ((List.range G).foldl
                (fun d g => butterflyGroup tw inv m (g * (m * 2)) ts d) d) (k - m) =
                d (k - m) := by
              rw [ih (k - m), if_neg (by omega : ¬ k - m < G * (m * 2))]
            have hr2 : ((List.range G).foldl
                (fun d g => butterflyGroup tw inv m (g * (m * 2)) ts d) d) k = d k := by
              rw [ih k, if_neg (by omega : ¬ k < G * (m * 2))]
            rw [hr1, hr2, if_pos hmid, if_neg (by omega : ¬ k % (m * 2) < m), hmod]
            have he : k - m - G * (m * 2) = k - G * (m * 2) - m := by omega
            rw [he]
        · rw [if_neg (by omega : ¬ (G * (m * 2) ≤ k ∧ k < G * (m * 2) + m)),
            if_neg (by omega : ¬ (G * (m * 2) + m ≤ k ∧ k < G * (m * 2) + m + m)),
            ih k, if_neg hlow, if_neg hmid]

theorem butterflyPass_eq_fold (size : ℕ) (tw : List ℂ) (d : Buf) (stage : ℕ)
    (inv : Bool) :
    butterflyPass size tw d stage inv =
      (List.range (size / 2 ^ (stage + 1))).foldl
        (fun d g =>
          butterflyGroup tw inv (2 ^ stage) (g * (2 ^ stage * 2))
            (size / 2 ^ (stage + 1)) d)
        d := by
  simp only [butterflyPass, Nat.shiftLeft_eq, Nat.shiftRight_eq_div_pow, one_mul,
    pow_one]

theorem butterflyPass_eval (n s : ℕ) (hs : s < n) (tw : List ℂ) (inv : Bool)
    (d : Buf) (k : ℕ) :
    butterflyPass (2 ^ n) tw d s inv k =
      if k < 2 ^ n then
        (if k % (2 ^ s * 2) < 2 ^ s then
          d k + d (k + 2 ^ s) * wApply tw inv ((k % (2 ^ s * 2)) * (2 ^ n / 2 ^ (s + 1)))
        else
          d (k - 2 ^ s) - d k *
            wApply tw inv ((k % (2 ^ s * 2) - 2 ^ s) * (2 ^ n / 2 ^ (s + 1))))
      else d k := by
  rw [butterflyPass_eq_fold, passFold_eval]
  have hG : 2 ^ n / 2 ^ (s + 1) * (2 ^ s * 2) = 2 ^ n := by
    have h1 : (2 : ℕ) ^ n = 2 ^ (s + 1) * 2 ^ (n - s - 1) := by
      rw [← pow_add]
      congr 1
      omega
    have h2 : (2 : ℕ) ^ (s + 1) = 2 ^ s * 2 := by rw [pow_succ]
    rw [h1, Nat.mul_div_cancel_left _ (by positivity), ← h2]
    ring
  rw [hG]

/-! ### Algebra of the roots of unity `cw` -/

theorem cw_zero (σ : ℤ) (M : ℕ) : cw σ M 0 = 1 := by
  simp [cw]

theorem cw_add (σ : ℤ) (M a b : ℕ) : cw σ M (a + b) = cw σ M a * cw σ M b := by
  rw [cw, cw, cw, ← Complex.exp_add]
  congr 1
  push_cast
  ring

theorem cw_mul_cancel (σ : ℤ) (M K a : ℕ) (hM : M ≠ 0) (hK : K ≠ 0) :
    cw σ (M * K) (a * K) = cw σ M a := by
  rw [cw, cw]
  congr 1
  have hMc : (M : ℂ) ≠ 0 := Nat.cast_ne_zero.mpr hM
  have hKc : (K : ℂ) ≠ 0 := Nat.cast_ne_zero.mpr hK
  push_cast
  field_simp
  ring

theorem cw_half_flip (σ : ℤ) (M u : ℕ) (hM : M ≠ 0) (hσ : σ = 1 ∨ σ = -1) :
    cw σ (M * 2) (M * u) = (-1 : ℂ) ^ u := by
  rw [cw]
  have hMc : (M : ℂ) ≠ 0 := Nat.cast_ne_zero.mpr hM
  have harg : (σ : ℂ) * (2 * Real.pi * Complex.I) * ((M * u : ℕ) : ℂ) /
      ((M * 2 : ℕ) : ℂ) = ((σ * u : ℤ) : ℂ) * (Real.pi * Complex.I) := by
    push_cast
    field_simp
    ring
  rw [harg, Complex.exp_int_mul, Complex.exp_pi_mul_I]
  rcases hσ with hσ | hσ
  · subst hσ
    rw [one_mul, zpow_natCast]
  · subst hσ
    have hneg : (-1 * (u : ℤ)) = -(u : ℤ) := by ring
    rw [hneg, zpow_neg, zpow_natCast, ← inv_pow]
    norm_num

theorem conj_cw (σ : ℤ) (M k : ℕ) :
    (starRingEnd ℂ) (cw σ M k) = cw (-σ) M k := by
  rw [cw, cw, ← Complex.exp_conj]
  congr 1
  simp only [map_div₀, map_mul, map_intCast, map_natCast, map_ofNat,
    Complex.conj_I, Complex.conj_ofReal]
  push_cast
  ring

theorem twiddleVal_eq_cw (N k : ℕ) : twiddleVal N k = cw (-1) N k := by
  simp only [twiddleVal, cw]
  rw [Complex.mk_eq_add_mul_I, Complex.ofReal_cos, Complex.ofReal_sin,
    ← Complex.exp_mul_I]
  congr 1
  push_cast
  ring

theorem initTwiddles_getD (N k : ℕ) (h : k < N / 2) :
    (initTwiddles N).getD k 0 = twiddleVal N k := by
  rw [initTwiddles]
  exact getD_range_map _ _ _ _ h

theorem wApply_initTwiddles (N : ℕ) (inv : Bool) (tidx : ℕ) (h : tidx < N / 2) :
    wApply (initTwiddles N) inv tidx = cw (twiddleSign inv) N tidx := by
  cases inv
  · simp only [wApply, twiddleSign, if_neg (by simp : ¬ (false = true)),
      Bool.false_eq_true, if_false, initTwiddles_getD N tidx h, twiddleVal_eq_cw]
  · simp only [wApply, twiddleSign, if_true, initTwiddles_getD N tidx h,
      twiddleVal_eq_cw, conj_cw]
    norm_num

theorem sum_range_double (M : ℕ) (f : ℕ → ℂ) :
    ∑ u ∈ Finset.range (2 * M), f u =
      ∑ v ∈ Finset.range M, f (2 * v) + ∑ v ∈ Finset.range M, f (2 * v + 1) := by
  induction M with
  | zero => simp
  | succ M ih =>
      have h2 : 2 * (M + 1) = (2 * M) + 1 + 1 := by ring
      rw [h2, Finset.sum_range_succ, Finset.sum_range_succ, Finset.sum_range_succ,
        Finset.sum_range_succ, ih]
      ring

theorem cw_self_mul (σ : ℤ) (M a : ℕ) (hM : M ≠ 0) : cw σ M (M * a) = 1 := by
  rw [cw]
  have hMc : (M : ℂ) ≠ 0 := Nat.cast_ne_zero.mpr hM
  have harg : (σ : ℂ) * (2 * Real.pi * Complex.I) * ((M * a : ℕ) : ℂ) /
      ((M : ℕ) : ℂ) = ((σ * a : ℤ) : ℂ) * (2 * Real.pi * Complex.I) := by
    push_cast
    field_simp
    ring
  rw [harg, Complex.exp_int_mul_two_pi_mul_I]

theorem cw_double_cancel (σ : ℤ) (M a : ℕ) (hM : M ≠ 0) :
    cw σ (2 * M) (2 * a) = cw σ M a := by
  have h1 : 2 * M = M * 2 := by ring
  have h2 : 2 * a = a * 2 := by ring
  rw [h1, h2, cw_mul_cancel σ M 2 a hM (by norm_num)]

theorem cw_double_flip (σ : ℤ) (M u : ℕ) (hM : M ≠ 0) (hσ : σ = 1 ∨ σ = -1) :
    cw σ (2 * M) (M * u) = (-1 : ℂ) ^ u := by
  have h1 : 2 * M = M * 2 := by ring
  rw [h1, cw_half_flip σ M u hM hσ]

/-! ### Permutation table facts and the per-stage description of the engine -/

theorem initBitRev_getD (N stages i : ℕ) (h : i < N) :
    (initBitReversalIndices N stages).getD i 0 = reverseBits i stages := by
  rw [initBitReversalIndices]
  exact getD_range_map _ _ _ _ h

theorem permTable_lt (n i : ℕ) (h : i < 2 ^ n) :
    (initBitReversalIndices (2 ^ n) n).getD i 0 < 2 ^ n := by
  rw [initBitRev_getD _ _ _ h]
  exact reverseBits_lt n i

theorem permTable_invol (n i : ℕ) (h : i < 2 ^ n) :
    (initBitReversalIndices (2 ^ n) n).getD
      ((initBitReversalIndices (2 ^ n) n).getD i 0) 0 = i := by
  rw [initBitRev_getD _ _ _ h, initBitRev_getD _ _ _ (reverseBits_lt n i)]
  exact reverseBits_involutive n i h

theorem bitReverse_pow_eval (n : ℕ) (d : Buf) (k : ℕ) (hk : k < 2 ^ n) :
    bitReverse (2 ^ n) (initBitReversalIndices (2 ^ n) n) d k =
      d (reverseBits k n) := by
  rw [bitReverse_eval (2 ^ n) _ (fun i hi => permTable_lt n i hi)
    (fun i hi => permTable_invol n i hi) d k hk, initBitRev_getD _ _ _ hk]

theorem computeButterflies_eq_stagesRun (size stages : ℕ) (tw : List ℂ)
    (d : Buf) (inv : Bool) :
    computeButterflies size stages tw d inv = stagesRun size tw d inv stages := rfl

theorem stagesRun_succ (size : ℕ) (tw : List ℂ) (d : Buf) (inv : Bool) (s : ℕ) :
    stagesRun size tw d inv (s + 1) =
      butterflyPass size tw (stagesRun size tw d inv s) s inv := by
  rw [stagesRun, stagesRun, List.range_succ, List.foldl_append, List.foldl_cons,
    List.foldl_nil]

theorem dft_split (σ : ℤ) (s : ℕ) (y : ℕ → ℂ) (t : ℕ) :
    ∑ u ∈ Finset.range (2 ^ (s + 1)), y u * cw σ (2 ^ (s + 1)) (t * u) =
      (∑ v ∈ Finset.range (2 ^ s), y (2 * v) * cw σ (2 ^ s) (t * v)) +
      cw σ (2 ^ (s + 1)) t *
        ∑ v ∈ Finset.range (2 ^ s), y (2 * v + 1) * cw σ (2 ^ s) (t * v) := by
  have ptwo : (2 : ℕ) ^ s ≠ 0 := pow_ne_zero s (by norm_num)
  have h2 : (2 : ℕ) ^ (s + 1) = 2 * 2 ^ s := by rw [pow_succ]; ring
  rw [h2, sum_range_double (2 ^ s) (fun u => y u * cw σ (2 * 2 ^ s) (t * u))]
  congr 1
  · apply Finset.sum_congr rfl
    intro v _
    congr 1
    have ha : t * (2 * v) = 2 * (t * v) := by ring
    rw [ha, cw_double_cancel σ (2 ^ s) (t * v) ptwo]
  · rw [Finset.mul_sum]
    apply Finset.sum_congr rfl
    intro v _
    have ha : t * (2 * v + 1) = 2 * (t * v) + t := by ring
    rw [ha, cw_add, cw_double_cancel σ (2 ^ s) (t * v) ptwo]
    ring

theorem dft_split_high (σ : ℤ) (hσ : σ = 1 ∨ σ = -1) (s : ℕ) (y : ℕ → ℂ)
    (t : ℕ) :
    ∑ u ∈ Finset.range (2 ^ (s + 1)), y u * cw σ (2 ^ (s + 1)) ((t + 2 ^ s) * u) =
      (∑ v ∈ Finset.range (2 ^ s), y (2 * v) * cw σ (2 ^ s) (t * v)) -
      cw σ (2 ^ (s + 1)) t *
        ∑ v ∈ Finset.range (2 ^ s), y (2 * v + 1) * cw σ (2 ^ s) (t * v) := by
  have ptwo : (2 : ℕ) ^ s ≠ 0 := pow_ne_zero s (by norm_num)
  have h2 : (2 : ℕ) ^ (s + 1) = 2 * 2 ^ s := by rw [pow_succ]; ring
  rw [h2, sum_range_double (2 ^ s)
    (fun u => y u * cw σ (2 * 2 ^ s) ((t + 2 ^ s) * u))]
  have heven : ∀ v ∈ Finset.range (2 ^ s),
      y (2 * v) * cw σ (2 * 2 ^ s) ((t + 2 ^ s) * (2 * v)) =
        y (2 * v) * cw σ (2 ^ s) (t * v) := by
    intro v _
    congr 1
    have ha : (t + 2 ^ s) * (2 * v) = 2 * ((t + 2 ^ s) * v) := by ring
    rw [ha, cw_double_cancel σ (2 ^ s) ((t + 2 ^ s) * v) ptwo]
    have hb : (t + 2 ^ s) * v = t * v + 2 ^ s * v := by ring
    rw [hb, cw_add, cw_self_mul σ (2 ^ s) v ptwo, mul_one]
  have hodd : ∀ v ∈ Finset.range (2 ^ s),
      y (2 * v + 1) * cw σ (2 * 2 ^ s) ((t + 2 ^ s) * (2 * v + 1)) =
        -(cw σ (2 * 2 ^ s) t * (y (2 * v + 1) * cw σ (2 ^ s) (t * v))) := by
    intro v _
    have ha : (t + 2 ^ s) * (2 * v + 1) = 2 * ((t + 2 ^ s) * v) + (t + 2 ^ s) := by
      ring
    rw [ha, cw_add, cw_double_cancel σ (2 ^ s) ((t + 2 ^ s) * v) ptwo]
    have hb : (t + 2 ^ s) * v = t * v + 2 ^ s * v := by ring
    have hflip : cw σ (2 * 2 ^ s) (2 ^ s) = -1 := by
      have hf := cw_double_flip σ (2 ^ s) 1 ptwo hσ
      simpa using hf
    rw [hb, cw_add, cw_self_mul σ (2 ^ s) v ptwo, mul_one, cw_add, hflip]
    ring
  rw [Finset.sum_congr rfl heven, Finset.sum_congr rfl hodd, Finset.sum_neg_distrib]
  rw [← Finset.mul_sum]
  ring

theorem twiddleSign_cases (inv : Bool) :
    twiddleSign inv = 1 ∨ twiddleSign inv = -1 := by
  cases inv <;> simp [twiddleSign]

/-- The radix-2 invariant: after the bit-reversal permutation and the first
`s` butterfly stages, block `g` of the buffer holds the `2^s`-point
transform (with rotation sign `twiddleSign inv`) of the input subsequence
with stride `2^b` and offset `reverseBits g b`, where `s + b = n`. -/
theorem stagesRun_spec (n : ℕ) (inv : Bool) (x : Buf) :
    ∀ s b, s + b = n → ∀ g, g < 2 ^ b → ∀ t, t < 2 ^ s →
      stagesRun (2 ^ n) (initTwiddles (2 ^ n))
          (bitReverse (2 ^ n) (initBitReversalIndices (2 ^ n) n) x) inv s
          (g * 2 ^ s + t) =
        ∑ u ∈ Finset.range (2 ^ s),
          x (u * 2 ^ b + reverseBits g b) * cw (twiddleSign inv) (2 ^ s) (t * u) := by
  intro s
  induction s with
  | zero =>
      intro b hb g hg t ht
      have ht0 : t = 0 := by omega
      have hbn : b = n := by omega
      subst ht0
      subst hbn
      rw [stagesRun]
      simp only [List.range_zero, List.foldl_nil, pow_zero, mul_one, add_zero]
      rw [bitReverse_pow_eval b x g hg, Finset.sum_range_one]
      simp [cw_zero]
  | succ s ih =>
      intro b hb g hg t ht
      have hsn : s < n := by omega
      have hb1 : s + (b + 1) = n := by omega
      have hps : (2 : ℕ) ^ (s + 1) = 2 ^ s * 2 := pow_succ 2 s
      have hpb : (2 : ℕ) ^ (b + 1) = 2 ^ b * 2 := pow_succ 2 b
      have p2s : (0 : ℕ) < 2 ^ s := by positivity
      have p2b : (0 : ℕ) < 2 ^ b := by positivity
      have hnn : (2 : ℕ) ^ n = 2 ^ (s + 1) * 2 ^ b := by
        rw [← pow_add]
        congr 1
        omega
      have hK : g * 2 ^ (s + 1) + t < 2 ^ n := by
        have h1 : (g + 1) * 2 ^ (s + 1) ≤ 2 ^ b * 2 ^ (s + 1) :=
          Nat.mul_le_mul_right _ (by omega)
        have h2 : 2 ^ b * 2 ^ (s + 1) = 2 ^ n := by rw [hnn]; ring
        have h3 : (g + 1) * 2 ^ (s + 1) = g * 2 ^ (s + 1) + 2 ^ (s + 1) := by ring
        omega
      have hmod : (g * 2 ^ (s + 1) + t) % (2 ^ s * 2) = t := by
        rw [← hps]
        have hco : g * 2 ^ (s + 1) = 2 ^ (s + 1) * g := by ring
        rw [hco, Nat.mul_add_mod]
        exact Nat.mod_eq_of_lt ht
      have hstepdiv : 2 ^ n / 2 ^ (s + 1) = 2 ^ b := by
        rw [hnn, Nat.mul_div_cancel_left _ (by positivity : (0 : ℕ) < 2 ^ (s + 1))]
      rw [stagesRun_succ, butterflyPass_eval n s hsn, if_pos hK, hmod, hstepdiv]
      by_cases hbr : t < 2 ^ s
      · rw [if_pos hbr]
        have hbound : t * 2 ^ b < 2 ^ n / 2 := by
          have h1 : 2 ^ n = 2 * (2 ^ s * 2 ^ b) := by rw [hnn, hps]; ring
          have h4 : (t + 1) * 2 ^ b ≤ 2 ^ s * 2 ^ b :=
            Nat.mul_le_mul_right _ (by omega)
          have h5 : (t + 1) * 2 ^ b = t * 2 ^ b + 2 ^ b := by ring
          omega
        have hw : wApply (initTwiddles (2 ^ n)) inv (t * 2 ^ b) =
            cw (twiddleSign inv) (2 ^ (s + 1)) t := by
          rw [wApply_initTwiddles (2 ^ n) inv (t * 2 ^ b) hbound, hnn]
          exact cw_mul_cancel (twiddleSign inv) (2 ^ (s + 1)) (2 ^ b) t
            (pow_ne_zero _ (by norm_num)) (pow_ne_zero _ (by norm_num))
        rw [hw]
        have hidx1 : g * 2 ^ (s + 1) + t = (2 * g) * 2 ^ s + t := by rw [hps]; ring
        rw [hidx1]
        have hidx2 : (2 * g) * 2 ^ s + t + 2 ^ s = (2 * g + 1) * 2 ^ s + t := by
          ring
        rw [hidx2]
        have hg1 : 2 * g < 2 ^ (b + 1) := by rw [hpb]; omega
        have hg2 : 2 * g + 1 < 2 ^ (b + 1) := by rw [hpb]; omega
        rw [ih (b + 1) hb1 (2 * g) hg1 t hbr, ih (b + 1) hb1 (2 * g + 1) hg2 t hbr,
          reverseBits_two_mul g b, reverseBits_two_mul_add_one g b]
        rw [dft_split (twiddleSign inv) s (fun u => x (u * 2 ^ b + reverseBits g b)) t]
        have hE : ∀ v ∈ Finset.range (2 ^ s),
            x (2 * v * 2 ^ b + reverseBits g b) * cw (twiddleSign inv) (2 ^ s) (t * v) =
              x (v * 2 ^ (b + 1) + reverseBits g b) *
                cw (twiddleSign inv) (2 ^ s) (t * v) := by
          intro v _
          have hi : 2 * v * 2 ^ b = v * 2 ^ (b + 1) := by rw [hpb]; ring
          rw [hi]
        have hO : ∀ v ∈ Finset.range (2 ^ s),
            x ((2 * v + 1) * 2 ^ b + reverseBits g b) *
                cw (twiddleSign inv) (2 ^ s) (t * v) =
              x (v * 2 ^ (b + 1) + (reverseBits g b + 2 ^ b)) *
                cw (twiddleSign inv) (2 ^ s) (t * v) := by
          intro v _
          have hi : (2 * v + 1) * 2 ^ b + reverseBits g b =
              v * 2 ^ (b + 1) + (reverseBits g b + 2 ^ b) := by
            rw [hpb]; ring
          rw [hi]
        rw [Finset.sum_congr rfl hE, Finset.sum_congr rfl hO]
        ring
      · rw [if_neg hbr]
        obtain ⟨t0, ht_eq, ht0⟩ : ∃ t0, t = t0 + 2 ^ s ∧ t0 < 2 ^ s :=
          ⟨t - 2 ^ s, by omega, by omega⟩
        subst ht_eq
        have hsub : t0 + 2 ^ s - 2 ^ s = t0 := by omega
        rw [hsub]
        have hbound : t0 * 2 ^ b < 2 ^ n / 2 := by
          have h1 : 2 ^ n = 2 * (2 ^ s * 2 ^ b) := by rw [hnn, hps]; ring
          have h4 : (t0 + 1) * 2 ^ b ≤ 2 ^ s * 2 ^ b :=
            Nat.mul_le_mul_right _ (by omega)
          have h5 : (t0 + 1) * 2 ^ b = t0 * 2 ^ b + 2 ^ b := by ring
          omega
        have hw : wApply (initTwiddles (2 ^ n)) inv (t0 * 2 ^ b) =
            cw (twiddleSign inv) (2 ^ (s + 1)) t0 := by
          rw [wApply_initTwiddles (2 ^ n) inv (t0 * 2 ^ b) hbound, hnn]
          exact cw_mul_cancel (twiddleSign inv) (2 ^ (s + 1)) (2 ^ b) t0
            (pow_ne_zero _ (by norm_num)) (pow_ne_zero _ (by norm_num))
        rw [hw]
        have hidxm : g * 2 ^ (s + 1) + (t0 + 2 ^ s) - 2 ^ s =
            (2 * g) * 2 ^ s + t0 := by
          have e2 : g * 2 ^ (s + 1) + t0 = (2 * g) * 2 ^ s + t0 := by rw [hps]; ring
          omega
        rw [hidxm]
        have hidxk : g * 2 ^ (s + 1) + (t0 + 2 ^ s) = (2 * g + 1) * 2 ^ s + t0 := by
          rw [hps]; ring
        rw [hidxk]
        have hg1 : 2 * g < 2 ^ (b + 1) := by rw [hpb]; omega
        have hg2 : 2 * g + 1 < 2 ^ (b + 1) := by rw [hpb]; omega
        rw [ih (b + 1) hb1 (2 * g) hg1 t0 ht0, ih (b + 1) hb1 (2 * g + 1) hg2 t0 ht0,
          reverseBits_two_mul g b, reverseBits_two_mul_add_one g b]
        rw [dft_split_high (twiddleSign inv) (twiddleSign_cases inv) s
          (fun u => x (u * 2 ^ b + reverseBits g b)) t0]
        have hE : ∀ v ∈ Finset.range (2 ^ s),
            x (2 * v * 2 ^ b + reverseBits g b) *
                cw (twiddleSign inv) (2 ^ s) (t0 * v) =
              x (v * 2 ^ (b + 1) + reverseBits g b) *
                cw (twiddleSign inv) (2 ^ s) (t0 * v) := by
          intro v _
          have hi : 2 * v * 2 ^ b = v * 2 ^ (b + 1) := by rw [hpb]; ring
          rw [hi]
        have hO : ∀ v ∈ Finset.range (2 ^ s),
            x ((2 * v + 1) * 2 ^ b + reverseBits g b) *
                cw (twiddleSign inv) (2 ^ s) (t0 * v) =
              x (v * 2 ^ (b + 1) + (reverseBits g b + 2 ^ b)) *
                cw (twiddleSign inv) (2 ^ s) (t0 * v) := by
          intro v _
          have hi : (2 * v + 1) * 2 ^ b + reverseBits g b =
              v * 2 ^ (b + 1) + (reverseBits g b + 2 ^ b) := by
            rw [hpb]; ring
          rw [hi]
        rw [Finset.sum_congr rfl hE, Finset.sum_congr rfl hO]
        ring

/-! ### The forward transform computes the DFT; the inverse undoes it -/

theorem log2_two_pow (n : ℕ) : log2 (2 ^ n) = n := by
  rw [log2, Nat.log2_eq_log_two, Nat.log_pow (by norm_num)]

theorem reverseBits_zero (v : ℕ) : reverseBits v 0 = 0 := rfl

theorem mkPlan_size (N : ℕ) (cfg : FFTPlanConfig) : (mkPlan N cfg).size = N := rfl

theorem mkPlan_twiddles (N : ℕ) (cfg : FFTPlanConfig) :
    (mkPlan N cfg).twiddles = initTwiddles N := rfl

theorem mkPlan_scaleFactor (N : ℕ) (cfg : FFTPlanConfig) :
    (mkPlan N cfg).scaleFactor = 1 / (N : ℝ) := rfl

theorem mkPlan_stages_pow (n : ℕ) (cfg : FFTPlanConfig) :
    (mkPlan (2 ^ n) cfg).stages = n := by
  show log2 (2 ^ n) = n
  exact log2_two_pow n

theorem mkPlan_bitRev_pow (n : ℕ) (cfg : FFTPlanConfig) :
    (mkPlan (2 ^ n) cfg).bitReversalIndices = initBitReversalIndices (2 ^ n) n := by
  show initBitReversalIndices (2 ^ n) (log2 (2 ^ n)) = _
  rw [log2_two_pow]

theorem forwardRun_eq_dft (n : ℕ) (cfg : FFTPlanConfig) (x : Buf) (k : ℕ)
    (hk : k < 2 ^ n) :
    forwardRun (mkPlan (2 ^ n) cfg) x k = dft (2 ^ n) x k := by
  rw [forwardRun, mkPlan_size, mkPlan_stages_pow, mkPlan_twiddles,
    mkPlan_bitRev_pow, computeButterflies_eq_stagesRun]
  have hspec := stagesRun_spec n false x n 0 (by omega) 0 (by norm_num) k hk
  simp only [pow_zero, mul_one, zero_mul, zero_add, add_zero, reverseBits_zero,
    twiddleSign, Bool.false_eq_true, if_false] at hspec
  rw [hspec, dft]

theorem exp_ratio_sum (N : ℕ) (hN : 0 < N) (d : ℤ) (hd : d ≠ 0)
    (hlt : d.natAbs < N) :
    ∑ u ∈ Finset.range N,
      Complex.exp (2 * Real.pi * Complex.I * (d : ℂ) / (N : ℂ)) ^ u = 0 := by
  have hNc : (N : ℂ) ≠ 0 := Nat.cast_ne_zero.mpr (by omega)
  have h2πI : (2 * (Real.pi : ℂ) * Complex.I) ≠ 0 := by
    simp [Real.pi_ne_zero, Complex.I_ne_zero]
  have hζ1 : Complex.exp (2 * Real.pi * Complex.I * (d : ℂ) / (N : ℂ)) ≠ 1 := by
    rw [Ne, Complex.exp_eq_one_iff]
    rintro ⟨m, hm⟩
    rw [mul_div_assoc, (by ring : (m : ℂ) * (2 * (Real.pi : ℂ) * Complex.I) =
      2 * (Real.pi : ℂ) * Complex.I * (m : ℂ))] at hm
    have hcancel := mul_left_cancel₀ h2πI hm
    rw [div_eq_iff hNc] at hcancel
    have hdz : d = m * (N : ℤ) := by exact_mod_cast hcancel
    have hN' : (0 : ℤ) < (N : ℤ) := by exact_mod_cast hN
    have habs : d < (N : ℤ) ∧ -(N : ℤ) < d := by omega
    rcases lt_trichotomy m 0 with hm0 | hm0 | hm0
    · have h1 : m ≤ -1 := by omega
      have h2 : m * (N : ℤ) ≤ -1 * N :=
        mul_le_mul_of_nonneg_right h1 (le_of_lt hN')
      omega
    · subst hm0
      simp at hdz
      exact hd hdz
    · have h1 : (1 : ℤ) ≤ m := by omega
      have h2 : 1 * (N : ℤ) ≤ m * N :=
        mul_le_mul_of_nonneg_right h1 (le_of_lt hN')
      omega
  rw [geom_sum_eq hζ1]
  have hζN : Complex.exp (2 * Real.pi * Complex.I * (d : ℂ) / (N : ℂ)) ^ N = 1 := by
    rw [← Complex.exp_nat_mul]
    have harg : (N : ℂ) * (2 * Real.pi * Complex.I * (d : ℂ) / (N : ℂ)) =
        (d : ℂ) * (2 * Real.pi * Complex.I) := by
      field_simp
      ring
    rw [harg, Complex.exp_int_mul_two_pi_mul_I]
  rw [hζN]
  simp

theorem cw_orthogonality (N : ℕ) (hN : 0 < N) (k v : ℕ) (hk : k < N)
    (hv : v < N) :
    ∑ u ∈ Finset.range N, cw (-1) N (u * v) * cw 1 N (k * u) =
      if k = v then (N : ℂ) else 0 := by
  have hterm : ∀ u : ℕ, cw (-1) N (u * v) * cw 1 N (k * u) =
      Complex.exp (2 * Real.pi * Complex.I * (((k : ℤ) - v : ℤ) : ℂ) / (N : ℂ)) ^ u := by
    intro u
    rw [cw, cw, ← Complex.exp_add, ← Complex.exp_nat_mul]
    congr 1
    push_cast
    ring
  rw [Finset.sum_congr rfl fun u _ => hterm u]
  by_cases hkv : k = v
  · subst hkv
    rw [if_pos rfl]
    have hz : (((k : ℤ) - k : ℤ) : ℂ) = 0 := by push_cast; ring
    rw [hz]
    simp
  · rw [if_neg hkv]
    apply exp_ratio_sum N hN ((k : ℤ) - v)
    · omega
    · omega

theorem roundtrip_core (n : ℕ) (cfg : FFTPlanConfig) (x : Buf) (k : ℕ)
    (hk : k < 2 ^ n) :
    inverseRun (mkPlan (2 ^ n) cfg) (forwardRun (mkPlan (2 ^ n) cfg) x) k = x k := by
  have hN : (0 : ℕ) < 2 ^ n := by positivity
  have hNc : ((2 ^ n : ℕ) : ℂ) ≠ 0 := Nat.cast_ne_zero.mpr (by positivity)
  rw [inverseRun, mkPlan_size, mkPlan_stages_pow, mkPlan_twiddles,
    mkPlan_bitRev_pow, mkPlan_scaleFactor, scaleLoop_eval, if_pos hk,
    computeButterflies_eq_stagesRun]
  have hspec := stagesRun_spec n true (forwardRun (mkPlan (2 ^ n) cfg) x) n 0
    (by omega) 0 (by norm_num) k hk
  simp only [pow_zero, mul_one, zero_mul, zero_add, add_zero, reverseBits_zero,
    twiddleSign, if_true] at hspec
  rw [hspec]
  have hsum : ∀ u ∈ Finset.range (2 ^ n),
      forwardRun (mkPlan (2 ^ n) cfg) x u * cw 1 (2 ^ n) (k * u) =
        (∑ v ∈ Finset.range (2 ^ n), x v * cw (-1) (2 ^ n) (u * v)) *
          cw 1 (2 ^ n) (k * u) := by
    intro u hu
    rw [forwardRun_eq_dft n cfg x u (Finset.mem_range.mp hu), dft]
  rw [Finset.sum_congr rfl hsum]
  have hpush : ∀ u ∈ Finset.range (2 ^ n),
      (∑ v ∈ Finset.range (2 ^ n), x v * cw (-1) (2 ^ n) (u * v)) *
          cw 1 (2 ^ n) (k * u) =
        ∑ v ∈ Finset.range (2 ^ n),
          x v * (cw (-1) (2 ^ n) (u * v) * cw 1 (2 ^ n) (k * u)) := by
    intro u _
    rw [Finset.sum_mul]
    apply Finset.sum_congr rfl
    intro v _
    ring
  rw [Finset.sum_congr rfl hpush, Finset.sum_comm]
  have hfact : ∀ v ∈ Finset.range (2 ^ n),
      ∑ u ∈ Finset.range (2 ^ n),
          x v * (cw (-1) (2 ^ n) (u * v) * cw 1 (2 ^ n) (k * u)) =
        x v * (if k = v then ((2 ^ n : ℕ) : ℂ) else 0) := by
    intro v hv
    rw [← Finset.mul_sum,
      cw_orthogonality (2 ^ n) hN k v hk (Finset.mem_range.mp hv)]
  rw [Finset.sum_congr rfl hfact]
  simp only [mul_ite, mul_zero]
  rw [Finset.sum_ite_eq (Finset.range (2 ^ n)) k (fun v => x v * ((2 ^ n : ℕ) : ℂ)),
    if_pos (Finset.mem_range.mpr hk)]
  push_cast
  field_simp

/-! ### Correctness of the power-of-two test and plan construction -/

theorem two_pow_and_pred (n : ℕ) : 2 ^ n &&& (2 ^ n - 1) = 0 := by
  apply Nat.eq_of_testBit_eq
  intro i
  rw [Nat.testBit_and, Nat.zero_testBit, Nat.testBit_two_pow,
    Nat.testBit_two_pow_sub_one]
  by_cases h : n = i
  · subst h
    simp
  · simp [h]

theorem pow_of_and_pred (N : ℕ) : 0 < N → N &&& (N - 1) = 0 → ∃ n, N = 2 ^ n := by
  induction N using Nat.strong_induction_on with
  | _ N ih =>
      intro hpos hand
      by_cases h1 : N = 1
      · exact ⟨0, by simp [h1]⟩
      rcases Nat.even_or_odd N with he | ho
      · have heven : N % 2 = 0 := Nat.even_iff.mp he
        have hM : N = 2 * (N / 2) := by omega
        have hMpos : 0 < N / 2 := by omega
        have hand2 : (N / 2) &&& (N / 2 - 1) = 0 := by
          apply Nat.eq_of_testBit_eq
          intro i
          have hx : (N &&& (N - 1)).testBit (i + 1) = false := by
            rw [hand]
            exact Nat.zero_testBit _
          rw [Nat.testBit_and, Nat.testBit_succ, Nat.testBit_succ] at hx
          have hdiv : (N - 1) / 2 = N / 2 - 1 := by omega
          rw [hdiv] at hx
          rw [Nat.testBit_and, Nat.zero_testBit]
          exact hx
        obtain ⟨m, hm⟩ := ih (N / 2) (by omega) hMpos hand2
        exact ⟨m + 1, by rw [pow_succ]; omega⟩
      · have hodd : N % 2 = 1 := Nat.odd_iff.mp ho
        have hhalf : N / 2 = 0 := by
          apply Nat.eq_of_testBit_eq
          intro i
          have hx : (N &&& (N - 1)).testBit (i + 1) = false := by
            rw [hand]
            exact Nat.zero_testBit _
          rw [Nat.testBit_and, Nat.testBit_succ, Nat.testBit_succ] at hx
          have hdiv : (N - 1) / 2 = N / 2 := by omega
          rw [hdiv] at hx
          rw [Nat.zero_testBit]
          cases hb : (N / 2).testBit i
          · rfl
          · rw [hb] at hx
            simp at hx
        omega

/-- The constructor's validation test accepts exactly the powers of two
(including `2^0 = 1`). -/
theorem isPowerOfTwo_spec (N : ℕ) : isPowerOfTwo N = true ↔ ∃ n, N = 2 ^ n := by
  constructor
  · intro h
    rw [isPowerOfTwo, Bool.and_eq_true, decide_eq_true_iff, decide_eq_true_iff] at h
    exact pow_of_and_pred N h.1 h.2
  · rintro ⟨n, rfl⟩
    rw [isPowerOfTwo, Bool.and_eq_true, decide_eq_true_iff, decide_eq_true_iff]
    exact ⟨by positivity, two_pow_and_pred n⟩

theorem createPlan_ok_inv (N : ℕ) (cfg : FFTPlanConfig) (p : FFTPlan)
    (h : createPlan N cfg = Except.ok p) : p = mkPlan N cfg := by
  rw [createPlan] at h
  by_cases hc : isPowerOfTwo N
  · rw [if_neg (by simp [hc])] at h
    exact (Except.ok.inj h).symm
  · rw [if_pos (by simp [hc] : (!isPowerOfTwo N) = true)] at h
    exact absurd h (by simp)

theorem createPlan_pow_ok (n : ℕ) (cfg : FFTPlanConfig) :
    createPlan (2 ^ n) cfg = Except.ok (mkPlan (2 ^ n) cfg) := by
  rw [createPlan, if_neg]
  simp [isPowerOfTwo_spec]

theorem createPlan_error_of_not_pow (N : ℕ) (cfg : FFTPlanConfig)
    (h : ¬ ∃ n, N = 2 ^ n) :
    createPlan N cfg = Except.error "FFT size must be a power of 2" := by
  rw [createPlan, if_pos]
  simp only [Bool.not_eq_true']
  rw [← Bool.not_eq_true]
  intro hc
  exact h ((isPowerOfTwo_spec N).mp hc)

theorem twiddle_index_bound (n s b : ℕ) (hs : s < n) (hb : b < 2 ^ s) :
    b * (2 ^ n / 2 ^ (s + 1)) < 2 ^ n / 2 := by
  have hnn : (2 : ℕ) ^ n = 2 ^ (s + 1) * 2 ^ (n - s - 1) := by
    rw [← pow_add]
    congr 1
    omega
  have hdiv : 2 ^ n / 2 ^ (s + 1) = 2 ^ (n - s - 1) := by
    rw [hnn, Nat.mul_div_cancel_left _ (by positivity : (0 : ℕ) < 2 ^ (s + 1))]
  have hhalf : 2 ^ n / 2 = 2 ^ s * 2 ^ (n - s - 1) := by
    have h1 : (2 : ℕ) ^ n = 2 * (2 ^ s * 2 ^ (n - s - 1)) := by
      rw [hnn, pow_succ]
      ring
    omega
  rw [hdiv, hhalf]
  have h4 : (b + 1) * 2 ^ (n - s - 1) ≤ 2 ^ s * 2 ^ (n - s - 1) :=
    Nat.mul_le_mul_right _ (by omega)
  have h5 : (b + 1) * 2 ^ (n - s - 1) = b * 2 ^ (n - s - 1) + 2 ^ (n - s - 1) := by
    ring
  have h6 : (0 : ℕ) < 2 ^ (n - s - 1) := by positivity
  omega

/-! ### The claims -/

/-- C1: for every plan of power-of-two size `N = 2^n` produced by
`createPlan` and every buffer, `forward` succeeds and overwrites the buffer
in place so that for every `k < N` the result at `k` is the unnormalised
DFT `Σₙ x[n]·e^(−2πi·k·n/N)` of the initial contents, over exact complex
arithmetic. -/
theorem C1_forward_computes_dft (n : ℕ) (cfg : FFTPlanConfig) (p : FFTPlan)
    (hp : createPlan (2 ^ n) cfg = Except.ok p) (x : Buf) :
    forward p (some x) = Except.ok (forwardRun p x) ∧
      ∀ k, k < 2 ^ n → forwardRun p x k = dft (2 ^ n) x k := by
  obtain rfl : p = mkPlan (2 ^ n) cfg := createPlan_ok_inv _ _ _ hp
  exact ⟨rfl, fun k hk => forwardRun_eq_dft n cfg x k hk⟩

theorem C1_witness :
    forwardRun (mkPlan (2 ^ 1) {}) (fun _ => 1) 0 = dft (2 ^ 1) (fun _ => 1) 0 :=
  (C1_forward_computes_dft 1 {} (mkPlan (2 ^ 1) {}) (createPlan_pow_ok 1 {})
    (fun _ => 1)).2 0 (by norm_num)

/-- C2: for every plan of power-of-two size `N = 2^n` produced by
`createPlan` and every buffer, applying `forward` and then `inverse`
returns the original buffer exactly, under exact complex arithmetic (the
inverse runs the same permute-and-stage sequence with conjugated twiddles,
then scales by `1/N`). -/
theorem C2_roundtrip (n : ℕ) (cfg : FFTPlanConfig) (p : FFTPlan)
    (hp : createPlan (2 ^ n) cfg = Except.ok p) (x : Buf) :
    forward p (some x) = Except.ok (forwardRun p x) ∧
      inverse p (some (forwardRun p x)) =
        Except.ok (inverseRun p (forwardRun p x)) ∧
      ∀ k, k < 2 ^ n → inverseRun p (forwardRun p x) k = x k := by
  obtain rfl : p = mkPlan (2 ^ n) cfg := createPlan_ok_inv _ _ _ hp
  exact ⟨rfl, rfl, fun k hk => roundtrip_core n cfg x k hk⟩

theorem C2_witness :
    inverseRun (mkPlan (2 ^ 1) {}) (forwardRun (mkPlan (2 ^ 1) {}) fun _ => 1) 0 = 1 :=
  (C2_roundtrip 1 {} (mkPlan (2 ^ 1) {}) (createPlan_pow_ok 1 {})
    (fun _ => 1)).2.2 0 (by norm_num)

/-- C3 counterexample: a buffer whose length (1) differs from the plan
size (4) is not rejected — `forward` and `inverse` both succeed, so the
claim that a mismatched-length buffer fails with a BufferError is false
(the code only checks for a null pointer; it cannot see a length). -/
theorem C3_counterexample :
    createPlan 4 {} = Except.ok (mkPlan 4 {}) ∧
      ([(0 : ℂ)] : List ℂ).length ≠ (mkPlan 4 {}).size ∧
      (forwardOnVector (mkPlan 4 {}) (some [0])).isOk = true ∧
      (inverseOnVector (mkPlan 4 {}) (some [0])).isOk = true := by
  refine ⟨createPlan_pow_ok 2 {}, ?_, rfl, rfl⟩
  show (1 : ℕ) ≠ 4
  decide

/-- C3 amended: `forward` and `inverse` fail with the BufferError
(`FFTError("Null data pointer")`) exactly when the buffer is absent; a
present buffer of any length is accepted and transformed (the source never
inspects the length; on the null failure no buffer exists to mutate, and
the check precedes all mutation). -/
theorem C3_null_check_only (p : FFTPlan) :
    forwardOnVector p none = Except.error "Null data pointer" ∧
      inverseOnVector p none = Except.error "Null data pointer" ∧
      ∀ l : List ℂ, (forwardOnVector p (some l)).isOk = true ∧
        (inverseOnVector p (some l)).isOk = true :=
  ⟨rfl, rfl, fun _ => ⟨rfl, rfl⟩⟩

/-- C4 counterexample: the error thrown for the invalid size 7 is the
fixed string `"FFT size must be a power of 2"`, which does not name the
size (it does not even contain the digit 7). -/
theorem C4_counterexample :
    createPlan 7 {} = Except.error "FFT size must be a power of 2" ∧
      '7' ∉ "FFT size must be a power of 2".data := by
  exact ⟨rfl, by decide⟩

/-- C4 amended: `createPlan` fails if and only if the size is 0 or not an
exact power of two, always with the fixed message
`"FFT size must be a power of 2"` (which does not name the size), and every
power of two — including `2^0 = 1` — yields the ready plan. -/
theorem C4_validation (size : ℕ) (cfg : FFTPlanConfig) :
    ((∃ e, createPlan size cfg = Except.error e) ↔
        (size = 0 ∨ ¬ ∃ n, size = 2 ^ n)) ∧
      (∀ n, size = 2 ^ n → createPlan size cfg = Except.ok (mkPlan size cfg)) ∧
      (¬ (∃ n, size = 2 ^ n) →
        createPlan size cfg = Except.error "FFT size must be a power of 2") := by
  by_cases hpow : ∃ n, size = 2 ^ n
  · obtain ⟨n, rfl⟩ := hpow
    refine ⟨⟨?_, ?_⟩, ?_, ?_⟩
    · rintro ⟨e, he⟩
      rw [createPlan_pow_ok] at he
      exact absurd he (by simp)
    · rintro (h0 | hnp)
      · exact absurd h0 (pow_ne_zero n (by norm_num))
      · exact absurd ⟨n, rfl⟩ hnp
    · intro m _
      exact createPlan_pow_ok n cfg
    · intro hnp
      exact absurd ⟨n, rfl⟩ hnp
  · have herr := createPlan_error_of_not_pow size cfg hpow
    exact ⟨⟨fun _ => Or.inr hpow, fun _ => ⟨_, herr⟩⟩,
      fun m hm => absurd ⟨m, hm⟩ hpow, fun _ => herr⟩

theorem C4_witness :
    createPlan 4 {} = Except.ok (mkPlan 4 {}) :=
  (C4_validation 4 {}).2.1 2 (by norm_num)

/-- C5 counterexample: the constructor accepts `size = 1` (`1` passes the
`size & (size-1) == 0` test), producing a plan of size 1, so the claimed
minimum of 2 does not hold on the code. -/
theorem C5_counterexample :
    createPlan 1 {} = Except.ok (mkPlan 1 {}) ∧ (mkPlan 1 {}).size < 2 := by
  refine ⟨createPlan_pow_ok 0 {}, ?_⟩
  show (1 : ℕ) < 2
  decide

/-- C5 amended: every size accepted by plan construction is an exact power
of two that is at least 1 (size 1 is accepted: `2^0`), and the stored
`size` equals the constructor argument for the plan's lifetime. -/
theorem C5_accepted_sizes (size : ℕ) (cfg : FFTPlanConfig) (p : FFTPlan)
    (hp : createPlan size cfg = Except.ok p) :
    (∃ n, p.size = 2 ^ n) ∧ 1 ≤ p.size ∧ p.size = size := by
  have hpow : isPowerOfTwo size = true := by
    by_contra hc
    rw [createPlan, if_pos (by simp [Bool.not_eq_true'] at hc ⊢; exact hc)] at hp
    exact absurd hp (by simp)
  obtain ⟨n, rfl⟩ := (isPowerOfTwo_spec size).mp hpow
  obtain rfl : p = mkPlan (2 ^ n) cfg := createPlan_ok_inv _ _ _ hp
  refine ⟨⟨n, mkPlan_size _ _⟩, ?_, mkPlan_size _ _⟩
  rw [mkPlan_size]
  exact Nat.one_le_pow n 2 (by norm_num)

theorem C5_witness :
    (∃ n, (mkPlan 2 {}).size = 2 ^ n) ∧ 1 ≤ (mkPlan 2 {}).size ∧
      (mkPlan 2 {}).size = 2 :=
  C5_accepted_sizes 2 {} (mkPlan 2 {}) (createPlan_pow_ok 1 {})

/-- C6: for every plan of size `2^n`, the stage count is `n = log2(size)`,
the permutation table has one entry per index, `permutationTable[i]`
equals `reverseBits(i, stageCount)` for every `i < 2^n`, and the table is
a bijection on `[0, 2^n)`. -/
theorem C6_bit_reversal_table (n : ℕ) (cfg : FFTPlanConfig) (p : FFTPlan)
    (hp : createPlan (2 ^ n) cfg = Except.ok p) :
    p.stages = n ∧
      p.bitReversalIndices.length = 2 ^ n ∧
      (∀ i, i < 2 ^ n → p.bitReversalIndices.getD i 0 = reverseBits i p.stages) ∧
      Set.BijOn (fun i => p.bitReversalIndices.getD i 0)
        {i : ℕ | i < 2 ^ n} {i : ℕ | i < 2 ^ n} := by
  obtain rfl : p = mkPlan (2 ^ n) cfg := createPlan_ok_inv _ _ _ hp
  refine ⟨mkPlan_stages_pow n cfg, ?_, ?_, ?_, ?_, ?_⟩
  · rw [mkPlan_bitRev_pow, initBitReversalIndices]
    simp
  · intro i hi
    rw [mkPlan_bitRev_pow, mkPlan_stages_pow, initBitRev_getD _ _ _ hi]
  · intro i hi
    simp only [Set.mem_setOf_eq] at hi ⊢
    rw [mkPlan_bitRev_pow]
    exact permTable_lt n i hi
  · intro a ha b hb hab
    simp only [Set.mem_setOf_eq] at ha hb
    simp only [mkPlan_bitRev_pow] at hab
    have h1 := permTable_invol n a ha
    have h2 := permTable_invol n b hb
    rw [hab] at h1
    rw [h2] at h1
    exact h1.symm
  · intro y hy
    simp only [Set.mem_setOf_eq] at hy
    refine ⟨(mkPlan (2 ^ n) cfg).bitReversalIndices.getD y 0, ?_, ?_⟩
    · simp only [Set.mem_setOf_eq, mkPlan_bitRev_pow]
      exact permTable_lt n y hy
    · simp only [mkPlan_bitRev_pow]
      exact permTable_invol n y hy

theorem C6_witness :
    (mkPlan (2 ^ 1) {}).stages = 1 ∧
      (mkPlan (2 ^ 1) {}).bitReversalIndices.length = 2 ^ 1 ∧
      (∀ i, i < 2 ^ 1 →
        (mkPlan (2 ^ 1) {}).bitReversalIndices.getD i 0 =
          reverseBits i (mkPlan (2 ^ 1) {}).stages) ∧
      Set.BijOn (fun i => (mkPlan (2 ^ 1) {}).bitReversalIndices.getD i 0)
        {i : ℕ | i < 2 ^ 1} {i : ℕ | i < 2 ^ 1} :=
  C6_bit_reversal_table 1 {} (mkPlan (2 ^ 1) {}) (createPlan_pow_ok 1 {})

/-- C7: the conditional-swap loop of `bitReverse` (swap `buffer[i]` with
`buffer[permutation[i]]` only when `i < permutation[i]`) realises exactly
the full bit-reversal permutation: afterwards position `k` holds the
original value at `permutation[k]`, for every `k < 2^n`. -/
theorem C7_permute_realises_table (n : ℕ) (cfg : FFTPlanConfig) (p : FFTPlan)
    (hp : createPlan (2 ^ n) cfg = Except.ok p) (d : Buf) (k : ℕ)
    (hk : k < 2 ^ n) :
    bitReverse p.size p.bitReversalIndices d k =
      d (p.bitReversalIndices.getD k 0) := by
  obtain rfl : p = mkPlan (2 ^ n) cfg := createPlan_ok_inv _ _ _ hp
  rw [mkPlan_size, mkPlan_bitRev_pow]
  exact bitReverse_eval _ _ (fun i hi => permTable_lt n i hi)
    (fun i hi => permTable_invol n i hi) d k hk

theorem C7_witness :
    bitReverse (mkPlan (2 ^ 1) {}).size (mkPlan (2 ^ 1) {}).bitReversalIndices
        (fun _ => 0) 1 =
      (fun _ => (0 : ℂ)) ((mkPlan (2 ^ 1) {}).bitReversalIndices.getD 1 0) :=
  C7_permute_realises_table 1 {} (mkPlan (2 ^ 1) {}) (createPlan_pow_ok 1 {})
    (fun _ => 0) 1 (by norm_num)

/-- C8: the twiddle table of a plan of size `N = 2^n` has exactly `N/2`
entries; entry `k` is `(cos θ, sin θ)` with `θ = −2π·k/N`; and every
twiddle index `b·(N >> (s+1))` a stage `s` uses (with `b < 2^s`) stays
below `N/2`, so the single table serves every stage. -/
theorem C8_twiddle_table (n : ℕ) (cfg : FFTPlanConfig) (p : FFTPlan)
    (hp : createPlan (2 ^ n) cfg = Except.ok p) :
    p.twiddles.length = 2 ^ n / 2 ∧
      (∀ k, k < 2 ^ n / 2 →
        p.twiddles.getD k 0 =
          ⟨Real.cos (-2 * Real.pi * (k : ℝ) / ((2 ^ n : ℕ) : ℝ)),
           Real.sin (-2 * Real.pi * (k : ℝ) / ((2 ^ n : ℕ) : ℝ))⟩) ∧
      ∀ s, s < n → ∀ b, b < 2 ^ s → b * (2 ^ n >>> (s + 1)) < 2 ^ n / 2 := by
  obtain rfl : p = mkPlan (2 ^ n) cfg := createPlan_ok_inv _ _ _ hp
  refine ⟨?_, ?_, ?_⟩
  · rw [mkPlan_twiddles, initTwiddles]
    simp
  · intro k hk
    rw [mkPlan_twiddles, initTwiddles_getD _ _ hk]
    rfl
  · intro s hs b hb
    rw [Nat.shiftRight_eq_div_pow]
    exact twiddle_index_bound n s b hs hb

theorem C8_witness :
    (mkPlan (2 ^ 2) {}).twiddles.length = 2 ^ 2 / 2 :=
  (C8_twiddle_table 2 {} (mkPlan (2 ^ 2) {}) (createPlan_pow_ok 2 {})).1

/-- C9: two plan configurations that agree on `inPlace` and `doublePrec`
(i.e. differ at most in the `useAVX` hardware hint) give plans with
identical construction outcomes and identical `forward`/`inverse`
behaviour on every buffer: the hint never affects observable results. -/
theorem C9_hint_has_no_effect (size : ℕ) (cfg1 cfg2 : FFTPlanConfig)
    (hip : cfg1.inPlace = cfg2.inPlace) (hdp : cfg1.doublePrec = cfg2.doublePrec) :
    (createPlan size cfg1).isOk = (createPlan size cfg2).isOk ∧
      ∀ p1 p2, createPlan size cfg1 = Except.ok p1 →
        createPlan size cfg2 = Except.ok p2 →
        ∀ data : Option Buf,
          forward p1 data = forward p2 data ∧
            inverse p1 data = inverse p2 data := by
  constructor
  · by_cases hc : isPowerOfTwo size
    · rw [createPlan, createPlan, if_neg (by simp [hc]), if_neg (by simp [hc])]
      rfl
    · rw [createPlan, createPlan, if_pos (by simp [hc]), if_pos (by simp [hc])]
  · intro p1 p2 h1 h2 data
    obtain rfl : p1 = mkPlan size cfg1 := createPlan_ok_inv _ _ _ h1
    obtain rfl : p2 = mkPlan size cfg2 := createPlan_ok_inv _ _ _ h2
    cases data with
    | none => exact ⟨rfl, rfl⟩
    | some d => exact ⟨rfl, rfl⟩

theorem C9_witness :
    (createPlan 4 ({} : FFTPlanConfig)).isOk =
      (createPlan 4 ({ useAVX := false } : FFTPlanConfig)).isOk :=
  (C9_hint_has_no_effect 4 {} { useAVX := false } rfl rfl).1

/-- C10: every index the engine touches is in bounds: the permutation
table only produces indices below `N = 2^n`, and at every stage `s < n`
each butterfly's pair indices `i` and `j = i + 2^s` are below `N` while
its twiddle index `b·(N >> (s+1))` is below the table length `N/2`. -/
theorem C10_index_bounds (n : ℕ) :
    (∀ i, i < 2 ^ n → (initBitReversalIndices (2 ^ n) n).getD i 0 < 2 ^ n) ∧
      ∀ s, s < n → ∀ e ∈ butterflyIndices (2 ^ n) s,
        e.1 < 2 ^ n ∧ e.2.1 < 2 ^ n ∧ e.2.2 < 2 ^ n / 2 := by
  refine ⟨fun i hi => permTable_lt n i hi, ?_⟩
  intro s hs e he
  rw [butterflyIndices] at he
  simp only [List.mem_flatMap, List.mem_map, List.mem_range,
    Nat.shiftLeft_eq, Nat.shiftRight_eq_div_pow, one_mul, pow_one] at he
  obtain ⟨g, hg, b, hb, he⟩ := he
  subst he
  dsimp only
  have hnn : (2 : ℕ) ^ n = 2 ^ (s + 1) * 2 ^ (n - s - 1) := by
    rw [← pow_add]
    congr 1
    omega
  have hdiv : 2 ^ n / 2 ^ (s + 1) = 2 ^ (n - s - 1) := by
    rw [hnn, Nat.mul_div_cancel_left _ (by positivity : (0 : ℕ) < 2 ^ (s + 1))]
  rw [hdiv] at hg
  have hmul : (g + 1) * (2 ^ s * 2) ≤ 2 ^ (n - s - 1) * (2 ^ s * 2) :=
    Nat.mul_le_mul_right _ (by omega)
  have hpw : 2 ^ (n - s - 1) * (2 ^ s * 2) = 2 ^ n := by
    rw [hnn, pow_succ]
    ring
  have hexp : (g + 1) * (2 ^ s * 2) = g * (2 ^ s * 2) + 2 ^ s * 2 := by ring
  refine ⟨by omega, by omega, ?_⟩
  have hti := twiddle_index_bound n s b hs hb
  rw [hdiv] at hti
  rw [hdiv]
  exact hti

theorem C10_witness :
    ((initBitReversalIndices (2 ^ 2) 2).getD 1 0 < 2 ^ 2) ∧
      ((0 : ℕ), (2 : ℕ), (0 : ℕ)).1 < 2 ^ 2 ∧
        ((0 : ℕ), (2 : ℕ), (0 : ℕ)).2.1 < 2 ^ 2 ∧
        ((0 : ℕ), (2 : ℕ), (0 : ℕ)).2.2 < 2 ^ 2 / 2 :=
  ⟨(C10_index_bounds 2).1 1 (by norm_num),
   (C10_index_bounds 2).2 1 (by norm_num) (0, 2, 0) (by decide)⟩

end DSP
